import Mathlib

/-!
A verification development for the IntelliDocs retrieval core
(`src/services/rag_service.py`, class `IntelliDocsRAG`).

The Python code is shallowly embedded: strings are `List Char`, vectors are
`List ℚ`, the mutable pair of parallel lists `self.documents` / `self.embeddings`
is an explicit `RAGState` record, and the external collaborators (text
extraction, the sentence-transformer encoder) are passed in as explicit
function/outcome parameters, since they perform I/O.

Floating-point remarks: the cosine-similarity value computed by the code is
`dot(q,v) / (‖q‖·‖v‖)`, whose denominator is an irrational square root in
general.  We represent such a value exactly by the pair `(num, denSq)` denoting
`num / √denSq` (`SimF` below), and compare two of them through the strictly
monotone rational encoding `sign(num)·num²/denSq` (`simKey`), so the ordering
of similarity values is captured exactly, with `denSq = 0` standing for the
IEEE NaN produced by the `0/0` division.  The boundary test
`boundary_pos > chunk_size * 0.7` is modelled by the exact rational comparison
`10·boundary_pos > 7·chunk_size`; for the chunk size the code actually uses
(800) the float product `800 * 0.7` rounds to exactly `560.0`, so the two
comparisons agree there.
-/

/-- ASCII whitespace, as recognised by Python's `str.strip()` (which also
strips some further Unicode space characters, not used by these claims). -/
def isSpace (c : Char) : Bool :=
  c = ' ' ∨ c = '\t' ∨ c = '\n' ∨ c = '\r' ∨ c = '\x0b' ∨ c = '\x0c'

/-- Python `s.strip()`: remove leading and trailing whitespace. -/
def pyStrip (l : List Char) : List Char :=
  ((l.dropWhile isSpace).reverse.dropWhile isSpace).reverse

/-- Python slice `s[a:b]` for `0 ≤ a ≤ b` (as used by `split_text`). -/
def pySlice (l : List Char) (a b : Nat) : List Char :=
  (l.drop a).take (b - a)

/-- Predicate `listStartsWith sub l`: holds when `sub` is an initial segment of `l`. -/
def listStartsWith : List Char → List Char → Bool
  | [], _ => true
  | _ :: _, [] => false
  | a :: as, b :: bs => a = b && listStartsWith as bs

/-- Python `s.rfind(sub)`: the largest index at which `sub` occurs in `l`,
or `-1` when it does not occur. -/
def rfind (l sub : List Char) : Int :=
  match ((List.range (l.length + 1)).filter
      (fun i => listStartsWith sub (l.drop i))).getLast? with
  | some p => (p : Int)
  | none => -1

/-- The sentence/paragraph boundary markers tried, in order, by
`split_text` (`['. ', '.\n', '!\n', '?\n']`); each is two characters long. -/
def boundaryMarkers : List (List Char) :=
  [['.', ' '], ['.', '\n'], ['!', '\n'], ['?', '\n']]

/-- The boundary scan of `split_text`: try each marker in order; the first
whose last occurrence `boundary_pos` satisfies `boundary_pos > chunk_size*0.7`
(modelled exactly as `10·boundary_pos > 7·chunk_size`) is accepted, and
its position returned. -/
def findBoundary (chunk : List Char) (chunk_size : Nat) : List (List Char) → Option Nat
  | [] => none
  | b :: bs =>
    if 10 * rfind chunk b > 7 * (chunk_size : Int) then some (rfind chunk b).toNat
    else findBoundary chunk chunk_size bs

/-- The proposed window end of one `split_text` iteration:
`end = start + chunk_size` clamped to the text length
(`if end > text_length: end = text_length`). -/
def propEnd (text : List Char) (chunk_size start : Nat) : Nat :=
  if start + chunk_size > text.length then text.length else start + chunk_size

/-- The boundary chosen by one `split_text` iteration: the boundary scan
runs only when the proposed end is strictly before the text's end
(`if end < text_length`). -/
def chooseBoundary (text : List Char) (chunk_size start : Nat) : Option Nat :=
  if propEnd text chunk_size start < text.length then
    findBoundary (pySlice text start (propEnd text chunk_size start)) chunk_size
      boundaryMarkers
  else none

/-- The body of one `split_text` loop iteration up to the chunk/boundary
computation: from the window start, compute the window
`chunk = text[start:end]`, apply the boundary search, and return the
possibly shortened chunk (`chunk = chunk[:boundary_pos + len(boundary)]`)
together with `actual_end`. -/
def stepWindow (text : List Char) (chunk_size : Nat) (start : Nat) : List Char × Nat :=
  match chooseBoundary text chunk_size start with
  | some p => ((pySlice text start (propEnd text chunk_size start)).take (p + 2),
               start + p + 2)
  | none => (pySlice text start (propEnd text chunk_size start),
             propEnd text chunk_size start)

/-- One-for-one embedding of the `while start < text_length` loop of
`IntelliDocsRAG.split_text`, with explicit fuel (the loop has no syntactic
termination measure; claim C6 is precisely that the fuel `text.length + 1`
never runs out).  Besides the accumulated chunk list the loop also records,
as ghost instrumentation used only to state coverage, the span
`(start, actual_end)` of each window it visits; the chunk component mirrors
the source exactly.  The source's start-update guard
`if start <= start or start < 0: start = actual_end` is kept literally. -/
def splitTextGo (text : List Char) (chunk_size overlap : Nat) :
    Nat → Nat → List (List Char) → List (Nat × Nat) →
    Option (List (List Char) × List (Nat × Nat))
  | 0, _, _, _ => none
  | fuel + 1, start, chunks, spans =>
    if start ≥ text.length then some (chunks, spans)
    else
      let ca := stepWindow text chunk_size start
      let chunks' := if pyStrip ca.1 ≠ [] then chunks ++ [pyStrip ca.1] else chunks
      let spans' := spans ++ [(start, ca.2)]
      let start1 : Int := (ca.2 : Int) - (overlap : Int)
      let start2 : Nat := if start1 ≤ start1 ∨ start1 < 0 then ca.2 else start1.toNat
      splitTextGo text chunk_size overlap fuel start2 chunks' spans'

/-- Model of `IntelliDocsRAG.split_text(text, chunk_size, overlap)`.  The final
`return [chunk for chunk in chunks if chunk.strip()]` filter is kept.
The fuel `text.length + 1` is shown sufficient by the termination theorem;
if it ran out (it cannot) the model would answer `[]`. -/
def split_text (text : List Char) (chunk_size overlap : Nat) : List (List Char) :=
  match splitTextGo text chunk_size overlap (text.length + 1) 0 [] [] with
  | some (chunks, _) => chunks.filter (fun c => pyStrip c ≠ [])
  | none => []

/-- The window spans `(start, actual_end)` visited by the `split_text` loop;
ghost data used to state that the windows tile the input text. -/
def splitTextSpans (text : List Char) (chunk_size overlap : Nat) : List (Nat × Nat) :=
  match splitTextGo text chunk_size overlap (text.length + 1) 0 [] [] with
  | some (_, spans) => spans
  | none => []

/-- One entry of `self.documents`: the dict
`{"text": chunk, "source": file_name, "chunk_id": i, "id": f"{file_name}_{i}"}`. -/
structure Doc where
  text : List Char
  source : List Char
  chunk_id : Nat
  id : List Char
deriving DecidableEq, Inhabited

/-- The mutable state of an `IntelliDocsRAG` instance that the claims are
about: the parallel in-memory lists `self.documents` and `self.embeddings`. -/
structure RAGState where
  documents : List Doc
  embeddings : List (List ℚ)
deriving DecidableEq, Inhabited

/-- The state set up by `IntelliDocsRAG.__init__`: both lists empty. -/
def initState : RAGState := { documents := [], embeddings := [] }

/-- Numpy `np.dot` on two equal-length vectors (the only way the code uses it). -/
def dotQ (a b : List ℚ) : ℚ := (List.zipWith (· * ·) a b).sum

/-- The squared norm `‖v‖²`; the code's `np.linalg.norm(v)` is `√(sumSq v)`. -/
def sumSq (v : List ℚ) : ℚ := dotQ v v

/-- The exact value of one entry of the code's `similarities` list:
`np.dot(q, v) / (np.linalg.norm(q) * np.linalg.norm(v))`, kept in the exact
form `num / √denSq` with `num = dot q v` and `denSq = ‖q‖²·‖v‖²`.
`denSq = 0` is precisely the case where the float code divides by zero and
produces NaN. -/
structure SimF where
  num : ℚ
  denSq : ℚ
deriving DecidableEq, Inhabited

/-- The similarity the code computes for query `q` against stored vector `v`. -/
def cosSim (q v : List ℚ) : SimF := { num := dotQ q v, denSq := sumSq q * sumSq v }

/-- The similarity is the float NaN: its denominator `‖q‖·‖v‖` is zero. -/
def simIsNaN (s : SimF) : Bool := s.denSq = 0

/-- Strictly monotone rational encoding of the real value `num / √denSq`:
`x ↦ sign(x)·x²` is strictly increasing, and `(num/√denSq)² = num²/denSq`,
so two defined similarities compare (as reals) exactly as their keys compare
in `ℚ`.  `none` encodes NaN. -/
def simKey (s : SimF) : Option ℚ :=
  if s.denSq = 0 then none
  else if s.num < 0 then some (-(s.num ^ 2 / s.denSq)) else some (s.num ^ 2 / s.denSq)

/-- Comparison of encoded similarity values, with NaN greatest — matching
where `np.argsort` places NaN in its ascending order (at the end). -/
def keyle : Option ℚ → Option ℚ → Bool
  | _, none => true
  | none, some _ => false
  | some a, some b => a ≤ b

/-- The comparator underlying the model of `np.argsort(similarities)`:
ascending by similarity value, ties by ascending position (the tie order
numpy's sort exhibits below its small-array threshold, where it runs a
stable insertion sort). -/
def argLe (sims : List SimF) (i j : Nat) : Bool :=
  let a := simKey (sims.getD i default)
  let b := simKey (sims.getD j default)
  if a = b then i ≤ j else keyle a b

/-- Model of `np.argsort(similarities)`: the indices `0 .. n-1` sorted
ascending by similarity value.  numpy guarantees only that the result is a
permutation of the indices that is ascending in the keys; the tie order of
its default quicksort is unspecified — it reduces to a stable insertion
sort only below the small-array threshold (16 elements), and above it the
introsort partitioning reorders equal keys.  This model uses insertion
sort (ties by ascending index), which is numpy's exact behaviour below the
threshold and an admissible argsort at every size.  General theorems about
`search_documents` rely only on the guaranteed properties — a permutation
(`argsort_perm`, `argsort_length`) that is ascending in the keys
(`argsort_keySorted`) — never on the tie order; tie-order-dependent facts
are stated only at concrete small sizes, where the model is exact. -/
def argsort (sims : List SimF) : List Nat :=
  (List.range sims.length).insertionSort (fun i j => argLe sims i j = true)

/-- Python slice `l[a:]` for an arbitrary (possibly negative) `a` — in
particular `l[-0:]` is all of `l`, the behaviour behind claim C2. -/
def pySliceFrom (a : Int) {α : Type} (l : List α) : List α :=
  if a < 0 then l.drop ((l.length + a).toNat) else l.drop a.toNat

/-- The slice `np.argsort(similarities)[-n_results:][::-1]` — the ranked index list
`top_indices` of `search_documents`. -/
def rankedIndices (sims : List SimF) (n_results : Int) : List Nat :=
  (pySliceFrom (-n_results) (argsort sims)).reverse

/-- The dict returned by `search_documents` (each field unwrapped from its
singleton outer list).  `simsRanked` records the similarity of each returned
entry in exact form; the code reports `distances = 1 - sim` computed from
exactly this value. -/
structure SearchResults where
  documents : List (List Char)
  metadatas : List (List Char × Nat)
  simsRanked : List SimF
deriving DecidableEq, Inhabited

/-- Model of `IntelliDocsRAG.search_documents(query, n_results)`.
`modelAvailable` stands for `self.embedding_model is not None`;
`queryEmbedding` is the outcome of `self.embedding_model.encode([query])[0]`,
`none` meaning the call raised (the `except` then returns `None` after an
`st.error` UI side effect).  Indexing `self.documents[i]` out of range would
raise `IndexError`, also caught by the same `except` returning `None`; the
model returns `none` in that case through the bounds check. -/
def search_documents (st : RAGState) (modelAvailable : Bool)
    (queryEmbedding : Option (List ℚ)) (n_results : Int) : Option SearchResults :=
  if st.documents = [] ∨ modelAvailable = false then none
  else
    match queryEmbedding with
    | none => none
    | some q =>
      let sims := st.embeddings.map (cosSim q)
      let top := rankedIndices sims n_results
      if top.all (fun i => i < st.documents.length) then
        some { documents := top.map (fun i => (st.documents.getD i default).text),
               metadatas := top.map (fun i =>
                 ((st.documents.getD i default).source,
                  (st.documents.getD i default).chunk_id)),
               simsRanked := top.map (fun i => sims.getD i default) }
      else none

/-- Outcome of the extraction part of `process_document`'s outer `try`
(temp-file I/O plus `_extract_pdf_text` / `_extract_docx_text` /
`_extract_txt_text`): either the extracted text, or an exception (`raised`),
which the outer `except` turns into `(False, "Error processing document: …")`. -/
inductive ExtractResult where
  | ok (text : List Char)
  | raised
deriving DecidableEq

/-- Python `s.lower()`. -/
def pyLower (l : List Char) : List Char := l.map Char.toLower

/-- The dict appended to `self.documents` for chunk number `i` of a file:
`id` is `f"{file_name}_{i}"`. -/
def mkDoc (file_name : List Char) (i : Nat) (chunk : List Char) : Doc :=
  { text := chunk, source := file_name, chunk_id := i,
    id := file_name ++ '_' :: Nat.toDigits 10 i }

/-- The body of the `for i, chunk in enumerate(chunks)` loop of
`process_document`: if the chunk is non-empty after `strip()`, try to embed
it; on success append the document dict and its vector (in that order) and
bump `chunks_added`; if `encode` raises, the `except` clause `continue`s,
appending neither. -/
def addChunkStep (embed : List Char → Option (List ℚ)) (file_name : List Char)
    (acc : List Doc × List (List ℚ) × Nat) (ic : Nat × List Char) :
    List Doc × List (List ℚ) × Nat :=
  if pyStrip ic.2 ≠ [] then
    match embed ic.2 with
    | some v => (acc.1 ++ [mkDoc file_name ic.1 ic.2], acc.2.1 ++ [v], acc.2.2 + 1)
    | none => acc
  else acc

/-- The whole `for i, chunk in enumerate(chunks)` loop of
`process_document`: the final `(documents, embeddings, chunks_added)`
triple. -/
def addChunks (embed : List Char → Option (List ℚ)) (file_name : List Char)
    (st : RAGState) (chunks : List (List Char)) : List Doc × List (List ℚ) × Nat :=
  chunks.enum.foldl (addChunkStep embed file_name) (st.documents, st.embeddings, 0)

/-- Model of `IntelliDocsRAG.process_document(file_content, file_name, file_type)`.
External effects are parameters: `embedModel` is `self.embedding_model`
(`none` when not loaded; otherwise a per-chunk encoder whose `none` result
models `encode` raising on that chunk), and `extracted` is the outcome of
the temp-file + extraction step for the given bytes.  The
`supabase_service.log_document_upload` call catches every exception
internally and only returns a `bool` (see `SupabaseService`), so it cannot
affect the state or the result and is not modelled.  Returns the new state
together with the `(success, message)` pair. -/
def process_document (st : RAGState) (embedModel : Option (List Char → Option (List ℚ)))
    (file_name file_type : List Char) (extracted : ExtractResult) :
    RAGState × Bool × List Char :=
  if pyLower file_type ≠ ("pdf").toList ∧ pyLower file_type ≠ ("docx").toList ∧
      pyLower file_type ≠ ("txt").toList then
    (st, false, ("Unsupported file type: ").toList ++ file_type)
  else
    match extracted with
    | .raised => (st, false, ("Error processing document").toList)
    | .ok text =>
      if pyStrip text = [] then (st, false, ("No text content found in document").toList)
      else if split_text text 800 100 = [] then
        (st, false, ("No chunks created from document").toList)
      else
        match embedModel with
        | none => (st, false, ("Embedding model not available").toList)
        | some embed =>
          ({ documents := (addChunks embed file_name st (split_text text 800 100)).1,
             embeddings := (addChunks embed file_name st (split_text text 800 100)).2.1 },
           true,
           ("Successfully processed ").toList ++
             Nat.toDigits 10 (addChunks embed file_name st (split_text text 800 100)).2.2 ++
             (" chunks from ").toList ++ file_name)

/-- First-seen-order deduplication, with an accumulator of already-seen
elements (structural recursion, so that it evaluates in the kernel). -/
def dedupFirstSeenGo (seen : List (List Char)) : List (List Char) → List (List Char)
  | [] => []
  | x :: xs =>
    if x ∈ seen then dedupFirstSeenGo seen xs
    else x :: dedupFirstSeenGo (x :: seen) xs

/-- First-seen-order deduplication: the distinct elements of `l` in the
order of their first occurrence. -/
def dedupFirstSeen (l : List (List Char)) : List (List Char) :=
  dedupFirstSeenGo [] l

/-- Model of `IntelliDocsRAG.get_document_list()`, i.e.
`list(set([doc["source"] for doc in self.documents]))`.  CPython iterates a
`set` of strings in an order determined by their (per-process randomly
salted) hashes, so the order of the returned list is not a function of the
state at all; the model therefore takes the iteration order as an explicit
parameter `setOrder`, constrained in the theorems to be a permutation — the
one guarantee `set` iteration gives. -/
def get_document_list (setOrder : List (List Char) → List (List Char))
    (st : RAGState) : List (List Char) :=
  setOrder (dedupFirstSeen (st.documents.map (fun d => d.source)))

/-- A deterministic stub embedder (every text embeds to `[1]`), used to set
up concrete scenario states. -/
def stubEmbed : List Char → Option (List ℚ) := fun _ => some [1]

/-- Upload one `.txt` file whose extraction yields `content`, with the stub
embedder: the resulting index state. -/
def uploadTxt (st : RAGState) (name content : List Char) : RAGState :=
  (process_document st (some stubEmbed) name (("txt").toList) (.ok content)).1

/-- The index state after uploading `A.txt`, then `B.txt`, then re-uploading
`A.txt` (the scenario of claim C8). -/
def stABA : RAGState :=
  uploadTxt
    (uploadTxt (uploadTxt initState (("A.txt").toList) (("alpha text").toList))
      (("B.txt").toList) (("beta text").toList))
    (("A.txt").toList) (("alpha again").toList)

/-- A concrete document used by the counterexample states. -/
def docA0 : Doc :=
  { text := ("alpha").toList, source := ("A").toList, chunk_id := 0, id := ("A_0").toList }

/-- A second concrete document, inserted after `docA0`. -/
def docA1 : Doc :=
  { text := ("beta").toList, source := ("A").toList, chunk_id := 1, id := ("A_1").toList }

/-- Two stored chunks whose vectors `[1,0]` and `[2,0]` point in the same
direction, hence have equal cosine similarity 1 to the query `[1,0]`. -/
def stTie : RAGState := { documents := [docA0, docA1], embeddings := [[1, 0], [2, 0]] }

/-- One stored chunk whose vector is the zero vector (norm 0). -/
def stZero : RAGState := { documents := [docA0], embeddings := [[0, 0]] }

/-- One stored chunk with a well-behaved unit vector. -/
def stOne : RAGState := { documents := [docA0], embeddings := [[1]] }

/-- Predicate `tiles len s spans`: the spans `(aᵢ, bᵢ)` are consecutive (`aᵢ₊₁ = bᵢ`),
start at `s`, are non-degenerate, and reach exactly up to `len`. -/
def tiles (len : Nat) : Nat → List (Nat × Nat) → Prop
  | s, [] => len ≤ s
  | s, (a, b) :: rest => a = s ∧ s < b ∧ b ≤ len ∧ tiles len b rest

/-! ### Library-style helper lemmas -/

theorem mem_pySliceFrom {α : Type} {a : Int} {l : List α} {x : α}
    (h : x ∈ pySliceFrom a l) : x ∈ l := by
  unfold pySliceFrom at h
  split at h <;> exact List.mem_of_mem_drop h

theorem argsort_perm (sims : List SimF) :
    (argsort sims).Perm (List.range sims.length) :=
  List.perm_insertionSort _ _

theorem mem_argsort {sims : List SimF} {i : Nat} (h : i ∈ argsort sims) :
    i < sims.length :=
  List.mem_range.mp ((argsort_perm sims).mem_iff.mp h)

theorem argsort_length (sims : List SimF) : (argsort sims).length = sims.length := by
  unfold argsort
  rw [List.length_insertionSort, List.length_range]

theorem argsort_nodup (sims : List SimF) : (argsort sims).Nodup :=
  ((argsort_perm sims).symm).nodup (List.nodup_range _)

theorem mem_rankedIndices {sims : List SimF} {n : Int} {i : Nat}
    (h : i ∈ rankedIndices sims n) : i < sims.length := by
  unfold rankedIndices at h
  exact mem_argsort (mem_pySliceFrom (List.mem_reverse.mp h))

/-- When the index is non-empty, the model is available, the query embeds,
and the two parallel lists have equal length, `search_documents` returns the
dict assembled from `rankedIndices`. -/
theorem search_documents_eq (st : RAGState) (q : List ℚ) (n : Int)
    (hlen : st.embeddings.length = st.documents.length) (hne : st.documents ≠ []) :
    search_documents st true (some q) n =
      some { documents := (rankedIndices (st.embeddings.map (cosSim q)) n).map
               (fun i => (st.documents.getD i default).text),
             metadatas := (rankedIndices (st.embeddings.map (cosSim q)) n).map
               (fun i => ((st.documents.getD i default).source,
                          (st.documents.getD i default).chunk_id)),
             simsRanked := (rankedIndices (st.embeddings.map (cosSim q)) n).map
               (fun i => (st.embeddings.map (cosSim q)).getD i default) } := by
  unfold search_documents
  rw [if_neg (by simp [hne])]
  have hall : ((rankedIndices (st.embeddings.map (cosSim q)) n).all
      (fun i => i < st.documents.length)) = true := by
    rw [List.all_eq_true]
    intro i hi
    have := mem_rankedIndices hi
    rw [List.length_map] at this
    simpa using hlen ▸ this
  simp only [hall, if_true]

/-! ### Claim C10: failed `process_document` leaves the state unchanged -/

/-- C10: whenever `process_document` returns an unsuccessful result
(unsupported file type, extraction exception, no extractable text, no
chunks, or embedding model unavailable), the index state — `documents` and
`embeddings` — is exactly what it was before the call: failure is atomic
and leaves no partial append.  (The per-chunk loop catches its own
exceptions, the Supabase logger catches all of its own exceptions and
returns a `bool`, so no other failure path exists.) -/
theorem process_document_failure_atomic (st : RAGState)
    (embedModel : Option (List Char → Option (List ℚ)))
    (file_name file_type : List Char) (extracted : ExtractResult)
    (h : (process_document st embedModel file_name file_type extracted).2.1 = false) :
    (process_document st embedModel file_name file_type extracted).1 = st := by
  revert h
  unfold process_document
  split
  · intro _; rfl
  · split
    · intro _; rfl
    · split
      · intro _; rfl
      · split
        · intro _; rfl
        · split
          · intro _; rfl
          · intro h; exact absurd h (by simp)

/-- Witness for C10 at a concrete failing input (unsupported file type). -/
theorem process_document_failure_atomic_witness :
    (process_document stOne none (("f").toList) (("xyz").toList)
      (.ok (("hi").toList))).1 = stOne :=
  process_document_failure_atomic stOne none (("f").toList) (("xyz").toList)
    (.ok (("hi").toList)) (by decide)

/-! ### Claim C9: embedding failure vs. empty index are not distinguishable -/

/-- C9 counterexample: a query-embedding failure (`encode` raising, caught
by the `except` which returns `None`) and an empty index produce the *same*
observable result, `None`, so the caller cannot distinguish "search
unavailable" from "no relevant documents found" — refuting the claim that
the two cases produce observably different results.  (The failure path
additionally calls `st.error`, a UI side effect; the value returned to the
caller — the only thing `chat_tab.py` branches on — is `None` either way.) -/
theorem search_failure_vs_empty_same_result :
    search_documents initState true (some [(1 : ℚ)]) 3 = none ∧
    search_documents stOne true none 3 = none ∧
    search_documents initState true (some [(1 : ℚ)]) 3 =
      search_documents stOne true none 3 := by decide

/-- C9 amended: `search_documents` returns `None` both when the query's own
embedding step fails and when the index is empty; the returned value does
not distinguish the two cases. -/
theorem search_documents_none_on_failure_and_empty
    (st : RAGState) (ma : Bool) (qe : Option (List ℚ)) (n : Int) :
    search_documents st ma none n = none ∧
    (st.documents = [] → search_documents st ma qe n = none) := by
  constructor
  · unfold search_documents
    split
    · rfl
    · rfl
  · intro h
    unfold search_documents
    rw [if_pos (Or.inl h)]

/-- Witness for the amended C9 at concrete inputs. -/
theorem search_documents_none_on_failure_and_empty_witness :
    search_documents stOne true none 3 = none ∧
    search_documents initState true (some [(1 : ℚ)]) 3 = none :=
  ⟨(search_documents_none_on_failure_and_empty stOne true none 3).1,
   (search_documents_none_on_failure_and_empty initState true (some [(1 : ℚ)]) 3).2 rfl⟩

/-! ### Claim C1: chunk/embedding lists stay aligned -/

theorem addChunks_foldl_pairs (embed : List Char → Option (List ℚ)) (fn : List Char)
    (l : List (Nat × List Char)) :
    ∀ d e n, ∃ pairs : List (Doc × List ℚ),
      (l.foldl (addChunkStep embed fn) (d, e, n)).1 = d ++ pairs.map Prod.fst ∧
      (l.foldl (addChunkStep embed fn) (d, e, n)).2.1 = e ++ pairs.map Prod.snd := by
  induction l with
  | nil => exact fun d e n => ⟨[], by simp, by simp⟩
  | cons x xs ih =>
    intro d e n
    rw [List.foldl_cons]
    by_cases hstrip : pyStrip x.2 = []
    · have hs : addChunkStep embed fn (d, e, n) x = (d, e, n) := by
        unfold addChunkStep
        rw [if_neg (by simpa using hstrip)]
      rw [hs]
      exact ih d e n
    · cases hx : embed x.2 with
      | some v =>
        have hs : addChunkStep embed fn (d, e, n) x =
            (d ++ [mkDoc fn x.1 x.2], e ++ [v], n + 1) := by
          unfold addChunkStep
          rw [if_pos (by simpa using hstrip), hx]
        rw [hs]
        obtain ⟨pairs, h1, h2⟩ := ih (d ++ [mkDoc fn x.1 x.2]) (e ++ [v]) (n + 1)
        refine ⟨(mkDoc fn x.1 x.2, v) :: pairs, ?_, ?_⟩
        · rw [h1]; simp
        · rw [h2]; simp
      | none =>
        have hs : addChunkStep embed fn (d, e, n) x = (d, e, n) := by
          unfold addChunkStep
          rw [if_pos (by simpa using hstrip), hx]
        rw [hs]
        exact ih d e n

/-- C1: the chunk list `documents` and the vector list `embeddings` always
have equal length and are paired positionally: `__init__` starts them both
empty, and `process_document` — the only mutating operation — appends only
matched (chunk, vector) pairs: a chunk whose individual embedding fails is
omitted from both lists (the per-chunk `except` appends neither). -/
theorem index_alignment_invariant :
    initState.documents.length = initState.embeddings.length ∧
    ∀ (st : RAGState) (em : Option (List Char → Option (List ℚ)))
      (fn ft : List Char) (ex : ExtractResult),
      st.documents.length = st.embeddings.length →
      (∃ pairs : List (Doc × List ℚ),
        (process_document st em fn ft ex).1.documents =
          st.documents ++ pairs.map Prod.fst ∧
        (process_document st em fn ft ex).1.embeddings =
          st.embeddings ++ pairs.map Prod.snd) ∧
      (process_document st em fn ft ex).1.documents.length =
        (process_document st em fn ft ex).1.embeddings.length := by
  refine ⟨rfl, ?_⟩
  intro st em fn ft ex h
  have key : ∃ pairs : List (Doc × List ℚ),
      (process_document st em fn ft ex).1.documents = st.documents ++ pairs.map Prod.fst ∧
      (process_document st em fn ft ex).1.embeddings = st.embeddings ++ pairs.map Prod.snd := by
    unfold process_document
    split
    · exact ⟨[], by simp, by simp⟩
    · split
      · exact ⟨[], by simp, by simp⟩
      · split
        · exact ⟨[], by simp, by simp⟩
        · split
          · exact ⟨[], by simp, by simp⟩
          · split
            · exact ⟨[], by simp, by simp⟩
            · unfold addChunks
              exact addChunks_foldl_pairs _ fn _ st.documents st.embeddings 0
  refine ⟨key, ?_⟩
  obtain ⟨pairs, h1, h2⟩ := key
  rw [h1, h2]
  simp [h]

/-- Witness for C1 at a concrete input (one successful upload). -/
theorem index_alignment_invariant_witness :
    (∃ pairs : List (Doc × List ℚ),
      (process_document stOne (some stubEmbed) (("A.txt").toList) (("txt").toList)
        (.ok (("alpha").toList))).1.documents = stOne.documents ++ pairs.map Prod.fst ∧
      (process_document stOne (some stubEmbed) (("A.txt").toList) (("txt").toList)
        (.ok (("alpha").toList))).1.embeddings = stOne.embeddings ++ pairs.map Prod.snd) ∧
    (process_document stOne (some stubEmbed) (("A.txt").toList) (("txt").toList)
      (.ok (("alpha").toList))).1.documents.length =
      (process_document stOne (some stubEmbed) (("A.txt").toList) (("txt").toList)
        (.ok (("alpha").toList))).1.embeddings.length :=
  index_alignment_invariant.2 stOne (some stubEmbed) (("A.txt").toList) (("txt").toList)
    (.ok (("alpha").toList)) rfl

/-! ### Claim C2: empty index and `topK = 0` -/

theorem rankedIndices_zero (sims : List SimF) :
    rankedIndices sims 0 = (argsort sims).reverse := by
  unfold rankedIndices pySliceFrom
  norm_num

theorem rankedIndices_length_pos (sims : List SimF) (n : Int) (hn : 0 < n) :
    (rankedIndices sims n).length = min n.toNat sims.length := by
  unfold rankedIndices pySliceFrom
  rw [if_pos (by omega : -n < 0), List.length_reverse, List.length_drop]
  have := argsort_length sims
  omega

/-- C2 counterexample: on a one-chunk index, `search` with `topK = 0`
returns a result holding 1 document, not an empty result: the slice
`np.argsort(similarities)[-0:]` is the *whole* array (`-0 == 0` in Python),
so `topK = 0` selects every chunk, refuting "search with topK = 0 returns
empty for every query". -/
theorem search_topk_zero_returns_all :
    (search_documents stOne true (some [(1 : ℚ)]) 0).map
      (fun r => r.documents.length) = some 1 := by decide

/-- C2 amended: `search` against an empty index returns `None` (absent, not
an error) for every query and every `topK`; but `search` with `topK = 0`
against a non-empty index returns *all* stored chunks ranked (the
`[-topK:]` slice with `topK = 0` is the whole array), not an empty
result. -/
theorem search_empty_and_topk_zero (st : RAGState) (ma : Bool)
    (qe : Option (List ℚ)) (q : List ℚ) (n : Int) :
    (st.documents = [] → search_documents st ma qe n = none) ∧
    (st.embeddings.length = st.documents.length → st.documents ≠ [] →
      (search_documents st true (some q) 0).map (fun r => r.documents.length) =
        some st.documents.length) := by
  constructor
  · intro h
    unfold search_documents
    rw [if_pos (Or.inl h)]
  · intro hlen hne
    rw [search_documents_eq st q 0 hlen hne]
    simp only [Option.map_some', List.length_map, Option.some.injEq]
    rw [rankedIndices_zero, List.length_reverse, argsort_length, List.length_map, hlen]

/-- Witness for the amended C2 at concrete inputs. -/
theorem search_empty_and_topk_zero_witness :
    search_documents initState true none 5 = none ∧
    (search_documents stOne true (some [(1 : ℚ)]) 0).map
      (fun r => r.documents.length) = some stOne.documents.length :=
  ⟨(search_empty_and_topk_zero initState true none [(1 : ℚ)] 5).1 rfl,
   (search_empty_and_topk_zero stOne true (some [(1 : ℚ)]) [(1 : ℚ)] 0).2 rfl
     (by decide)⟩

/-! ### Claim C4: zero-norm stored vectors -/

/-- C4 counterexample: against an index holding the zero vector, the
similarity `search` computes for it is `0/0` — the float NaN, whose exact
encoding here is `simKey = none` — not the value `0` the claim asserts:
there is no zero-norm guard at `rag_service.py:268-270`.  (No exception is
raised: numpy turns the division into `nan` with a warning, so a result is
still returned; but its score is NaN, not 0.) -/
theorem search_zero_norm_nan :
    (search_documents stZero true (some [(1 : ℚ), 0]) 3).map
      (fun r => r.simsRanked.map simKey) = some [none] ∧
    simKey (cosSim [(1 : ℚ), 0] [0, 0]) ≠ some 0 := by
  have hden : (cosSim [(1 : ℚ), 0] [0, 0]).denSq = 0 := by
    norm_num [cosSim, sumSq, dotQ]
  have hkey : simKey (cosSim [(1 : ℚ), 0] [0, 0]) = none := by
    simp [simKey, hden]
  constructor
  · rw [search_documents_eq stZero [(1 : ℚ), 0] 3 rfl (by decide)]
    simp only [Option.map_some', Option.some.injEq]
    show ((rankedIndices (stZero.embeddings.map (cosSim [(1 : ℚ), 0])) 3).map
      (fun i => (stZero.embeddings.map (cosSim [(1 : ℚ), 0])).getD i default)).map simKey
        = [none]
    have hr : rankedIndices (stZero.embeddings.map (cosSim [(1 : ℚ), 0])) 3 = [0] := by
      decide
    rw [hr]
    simp [stZero, hkey]
  · rw [hkey]
    exact fun h => Option.noConfusion h

/-- C4 amended: for a stored vector of norm zero, `search` computes the
similarity `dot(q,v)/(‖q‖·‖v‖)` with no zero-norm guard; the division is
`0/0` and the score is NaN (encoded `simKey = none`), not `0`.  `search`
does not crash — it still returns a result dict — but the degenerate
vector's score is NaN rather than the claimed 0. -/
theorem search_zero_norm_yields_nan (st : RAGState) (q v : List ℚ) (n : Int)
    (hlen : st.embeddings.length = st.documents.length) (hne : st.documents ≠ [])
    (hv : v ∈ st.embeddings) (hz : sumSq v = 0) :
    simIsNaN (cosSim q v) = true ∧ simKey (cosSim q v) = none ∧
    ∃ r, search_documents st true (some q) n = some r := by
  refine ⟨?_, ?_, ⟨_, search_documents_eq st q n hlen hne⟩⟩
  · unfold simIsNaN cosSim
    simp [hz]
  · unfold simKey cosSim
    simp [hz]

/-- Witness for the amended C4 at a concrete input. -/
theorem search_zero_norm_yields_nan_witness :
    simIsNaN (cosSim [(1 : ℚ), 0] [0, 0]) = true ∧
    simKey (cosSim [(1 : ℚ), 0] [0, 0]) = none ∧
    ∃ r, search_documents stZero true (some [(1 : ℚ), 0]) 3 = some r :=
  search_zero_norm_yields_nan stZero [(1 : ℚ), 0] [0, 0] 3 rfl (by decide)
    (by decide) (by norm_num [sumSq, dotQ])

/-! ### Claim C8: `get_document_list` uniqueness and order -/

theorem mem_dedupFirstSeenGo :
    ∀ (l seen : List (List Char)) (x : List Char),
      x ∈ dedupFirstSeenGo seen l ↔ x ∈ l ∧ x ∉ seen := by
  intro l
  induction l with
  | nil => intro seen x; simp [dedupFirstSeenGo]
  | cons y ys ih =>
    intro seen x
    unfold dedupFirstSeenGo
    split
    · rename_i hy
      rw [ih seen x]
      simp only [List.mem_cons]
      constructor
      · rintro ⟨hx, hn⟩
        exact ⟨Or.inr hx, hn⟩
      · rintro ⟨rfl | hx, hn⟩
        · exact absurd hy hn
        · exact ⟨hx, hn⟩
    · rename_i hy
      rw [List.mem_cons, ih (y :: seen) x]
      simp only [List.mem_cons]
      constructor
      · rintro (rfl | ⟨hx, hn⟩)
        · exact ⟨Or.inl rfl, hy⟩
        · exact ⟨Or.inr hx, fun hs => hn (Or.inr hs)⟩
      · rintro ⟨rfl | hx, hn⟩
        · exact Or.inl rfl
        · by_cases hxy : x = y
          · exact Or.inl hxy
          · exact Or.inr ⟨hx, fun hs => hs.elim hxy hn⟩

theorem nodup_dedupFirstSeenGo :
    ∀ (l seen : List (List Char)), (dedupFirstSeenGo seen l).Nodup := by
  intro l
  induction l with
  | nil => intro seen; simp [dedupFirstSeenGo]
  | cons y ys ih =>
    intro seen
    unfold dedupFirstSeenGo
    split
    · exact ih seen
    · rw [List.nodup_cons]
      refine ⟨fun hmem => ?_, ih (y :: seen)⟩
      exact ((mem_dedupFirstSeenGo ys (y :: seen) y).mp hmem).2 (List.mem_cons_self y seen)

/-- C8 counterexample: `get_document_list` is `list(set(...))`; CPython's
`set` iteration order for strings is determined by per-process randomly
salted hashes, so *any* permutation of the distinct sources is an
admissible iteration order.  Under one admissible order (here: the reverse
of first-seen order) the scenario upload A.txt, B.txt, A.txt yields
`["B.txt", "A.txt"]`, not the claimed `["A.txt", "B.txt"]`: first-seen
order is not guaranteed. -/
theorem document_list_order_not_first_seen :
    (List.reverse (dedupFirstSeen (stABA.documents.map (fun d => d.source)))).Perm
      (dedupFirstSeen (stABA.documents.map (fun d => d.source))) ∧
    get_document_list List.reverse stABA = [("B.txt").toList, ("A.txt").toList] ∧
    get_document_list List.reverse stABA ≠ [("A.txt").toList, ("B.txt").toList] :=
  ⟨List.reverse_perm _, by decide, by decide⟩

/-- C8 amended: `get_document_list` returns each distinct `source` of the
indexed chunks exactly once — after uploading A.txt, B.txt and re-uploading
A.txt it returns a list with A.txt listed once and B.txt once — but in
Python-`set` iteration order, which is an unspecified (hash-dependent)
permutation of the distinct sources, not guaranteed first-seen order. -/
theorem get_document_list_unique_unordered
    (setOrder : List (List Char) → List (List Char))
    (hso : ∀ l, (setOrder l).Perm l) (st : RAGState) :
    (get_document_list setOrder st).Perm
      (dedupFirstSeen (st.documents.map (fun d => d.source))) ∧
    (get_document_list setOrder st).Nodup ∧
    ∀ s, s ∈ get_document_list setOrder st ↔
      s ∈ st.documents.map (fun d => d.source) := by
  unfold get_document_list
  have hperm := hso (dedupFirstSeen (st.documents.map (fun d => d.source)))
  refine ⟨hperm, hperm.symm.nodup (nodup_dedupFirstSeenGo _ []), fun s => ?_⟩
  rw [hperm.mem_iff]
  unfold dedupFirstSeen
  rw [mem_dedupFirstSeenGo]
  simp

/-! ### Chunker lemmas (claims C3, C6, C7) -/

theorem listStartsWith_length {sub t : List Char} (h : listStartsWith sub t = true) :
    sub.length ≤ t.length := by
  induction sub generalizing t with
  | nil => simp
  | cons a as ih =>
    cases t with
    | nil => simp [listStartsWith] at h
    | cons b bs =>
      simp only [listStartsWith, Bool.and_eq_true] at h
      have := ih h.2
      simp only [List.length_cons]
      omega

theorem rfind_spec {l sub : List Char} (hp : 0 ≤ rfind l sub) :
    listStartsWith sub (l.drop (rfind l sub).toNat) = true ∧
    (rfind l sub).toNat ≤ l.length := by
  unfold rfind at *
  cases hg : ((List.range (l.length + 1)).filter
      (fun i => listStartsWith sub (l.drop i))).getLast? with
  | none =>
    rw [hg] at hp
    dsimp only at hp
    omega
  | some q =>
    dsimp only at hp ⊢
    have hmem : q ∈ (List.range (l.length + 1)).filter
        (fun i => listStartsWith sub (l.drop i)) := by
      obtain ⟨ys, hys⟩ := List.getLast?_eq_some_iff.mp hg
      rw [hys]
      exact List.mem_append_right _ (List.mem_singleton.mpr rfl)
    rw [List.mem_filter] at hmem
    have hq : q < l.length + 1 := List.mem_range.mp hmem.1
    have hnat : ((q : Int)).toNat = q := by omega
    rw [hnat]
    exact ⟨hmem.2, by omega⟩

theorem findBoundary_bound {chunk : List Char} {cs p : Nat}
    (h : findBoundary chunk cs boundaryMarkers = some p) : p + 2 ≤ chunk.length := by
  suffices H : ∀ bs : List (List Char), (∀ b ∈ bs, b.length = 2) →
      findBoundary chunk cs bs = some p → p + 2 ≤ chunk.length from
    H boundaryMarkers (by decide) h
  intro bs
  induction bs with
  | nil => intro _ h'; simp [findBoundary] at h'
  | cons b rest ih =>
    intro hlen h'
    unfold findBoundary at h'
    split at h'
    · rename_i hcond
      have hp0 : (0 : Int) ≤ rfind chunk b := by omega
      obtain ⟨hsw, hle⟩ := rfind_spec hp0
      have hsub := listStartsWith_length hsw
      have hb2 : b.length = 2 := hlen b (List.mem_cons_self b rest)
      rw [List.length_drop] at hsub
      have hpq : p = (rfind chunk b).toNat := by
        simpa using h'.symm
      omega
    · exact ih (fun b hb => hlen b (List.mem_cons_of_mem _ hb)) h'

theorem propEnd_gt (text : List Char) (cs start : Nat) (hcs : 0 < cs)
    (h : start < text.length) : start < propEnd text cs start := by
  unfold propEnd
  split <;> omega

theorem propEnd_le (text : List Char) (cs start : Nat) :
    propEnd text cs start ≤ text.length := by
  unfold propEnd
  split <;> omega

theorem propEnd_ge (text : List Char) (cs start : Nat)
    (h : start < text.length) : start ≤ propEnd text cs start := by
  unfold propEnd
  split <;> omega

theorem chooseBoundary_bound {text : List Char} {cs start p : Nat}
    (h : chooseBoundary text cs start = some p) (hlt : start < text.length) :
    start + p + 2 ≤ propEnd text cs start := by
  unfold chooseBoundary at h
  split at h
  · have hb := findBoundary_bound h
    unfold pySlice at hb
    rw [List.length_take, List.length_drop] at hb
    have := propEnd_le text cs start
    have := propEnd_ge text cs start hlt
    omega
  · exact absurd h (by simp)

theorem stepWindow_lt (text : List Char) (cs start : Nat) (hcs : 0 < cs)
    (h : start < text.length) : start < (stepWindow text cs start).2 := by
  unfold stepWindow
  cases hbd : chooseBoundary text cs start with
  | some p => dsimp only; omega
  | none => dsimp only; exact propEnd_gt text cs start hcs h

theorem stepWindow_le (text : List Char) (cs start : Nat)
    (h : start < text.length) : (stepWindow text cs start).2 ≤ text.length := by
  unfold stepWindow
  cases hbd : chooseBoundary text cs start with
  | some p =>
    dsimp only
    have := chooseBoundary_bound hbd h
    have := propEnd_le text cs start
    omega
  | none => dsimp only; exact propEnd_le text cs start

theorem stepWindow_slice (text : List Char) (cs start : Nat)
    (h : start < text.length) :
    (stepWindow text cs start).1 = pySlice text start (stepWindow text cs start).2 := by
  unfold stepWindow
  cases hbd : chooseBoundary text cs start with
  | some p =>
    dsimp only
    have hb := chooseBoundary_bound hbd h
    have hge := propEnd_ge text cs start h
    unfold pySlice
    rw [List.take_take]
    have h1 : (p + 2) ⊓ (propEnd text cs start - start) = p + 2 := by omega
    have h2 : start + p + 2 - start = p + 2 := by omega
    rw [h1, h2]
  | none => rfl

theorem splitTextGo_succ (text : List Char) (cs ov f start : Nat)
    (chunks : List (List Char)) (spans : List (Nat × Nat))
    (h : ¬ start ≥ text.length) :
    splitTextGo text cs ov (f + 1) start chunks spans =
      splitTextGo text cs ov f (stepWindow text cs start).2
        (if pyStrip (stepWindow text cs start).1 ≠ [] then
          chunks ++ [pyStrip (stepWindow text cs start).1] else chunks)
        (spans ++ [(start, (stepWindow text cs start).2)]) := by
  conv_lhs => rw [splitTextGo]
  rw [if_neg h]
  simp only [le_refl, true_or, if_true]

theorem splitTextGo_total (text : List Char) (cs ov : Nat) (hcs : 0 < cs) :
    ∀ (fuel start : Nat) (chunks : List (List Char)) (spans : List (Nat × Nat)),
      text.length - start < fuel →
      ∃ out, splitTextGo text cs ov fuel start chunks spans = some out := by
  intro fuel
  induction fuel with
  | zero => intro start chunks spans h; omega
  | succ f ih =>
    intro start chunks spans h
    by_cases hge : start ≥ text.length
    · exact ⟨(chunks, spans), by rw [splitTextGo, if_pos hge]⟩
    · rw [splitTextGo_succ text cs ov f start chunks spans hge]
      have hstep := stepWindow_lt text cs start hcs (by omega)
      exact ih _ _ _ (by omega)

/-- C6: for every input text, `targetSize > 0` and `0 ≤ overlap < targetSize`,
the `split_text` loop terminates after at most `text.length` iterations
(fuel `text.length + 1` always suffices): every iteration moves `start` to
`actual_end`, which is strictly larger, because the start-update guard
always fires.  This covers the regression input — 10000 characters with
`targetSize = 800`, `overlap = 799` (see the witness). -/
theorem split_text_terminates (text : List Char) (cs ov : Nat)
    (hcs : 0 < cs) (hov : ov < cs) :
    ∃ out, splitTextGo text cs ov (text.length + 1) 0 [] [] = some out :=
  splitTextGo_total text cs ov hcs (text.length + 1) 0 [] [] (by omega)

/-- Witness for C6 at the regression input: text of length 10000,
`targetSize = 800`, `overlap = 799`. -/
theorem split_text_terminates_witness :
    ∃ out, splitTextGo (List.replicate 10000 'a') 800 799
      ((List.replicate 10000 'a' : List Char).length + 1) 0 [] [] = some out :=
  split_text_terminates (List.replicate 10000 'a') 800 799 (by decide) (by decide)

/-- C3: evaluation of the model at the failing input.  On a 20-character
text with `targetSize = 10` and `overlap = 3` (no boundary markers
present), the windows produced are `(0, 10)` and `(10, 20)`: the second
window starts at `actual_end = 10`, not at `actual_end - overlap = 7`, and
the two chunks share no characters.  The source's guard
`if start <= start or start < 0: start = actual_end` is a tautology
(`start <= start` always holds), so the fallback `start = actual_end` fires
on *every* iteration and the claimed normal advance to
`actual_end - overlap` never happens: consecutive chunks never overlap. -/
theorem split_text_never_overlaps_regression :
    splitTextSpans (List.replicate 20 'a') 10 3 = [(0, 10), (10, 20)] ∧
    split_text (List.replicate 20 'a') 10 3 =
      [List.replicate 10 'a', List.replicate 10 'a'] := by decide

/-! ### Claim C7: coverage and non-emptiness of chunks -/

theorem dropWhile_idem (p : Char → Bool) (l : List Char) :
    (l.dropWhile p).dropWhile p = l.dropWhile p := by
  induction l with
  | nil => rfl
  | cons a l ih =>
    by_cases h : p a
    · simp [List.dropWhile_cons, h, ih]
    · simp [List.dropWhile_cons, h]

theorem dropWhile_head_false {p : Char → Bool} {l : List Char} {c : Char}
    (h : (l.dropWhile p).head? = some c) : p c = false := by
  induction l with
  | nil => simp at h
  | cons a l ih =>
    rw [List.dropWhile_cons] at h
    split at h
    · exact ih h
    · rename_i hpa
      simp only [List.head?_cons, Option.some.injEq] at h
      subst h
      exact Bool.eq_false_iff.mpr hpa

theorem dropWhile_eq_self_of_head {p : Char → Bool} {l : List Char} {c : Char}
    (h : l.head? = some c) (hc : p c = false) : l.dropWhile p = l := by
  cases l with
  | nil => rfl
  | cons a t =>
    simp only [List.head?_cons, Option.some.injEq] at h
    subst h
    rw [List.dropWhile_cons, if_neg (by simp [hc])]

theorem pyStrip_idem (l : List Char) : pyStrip (pyStrip l) = pyStrip l := by
  unfold pyStrip
  set A := l.dropWhile isSpace with hA
  set X := A.reverse.dropWhile isSpace with hX
  have h1 : X.reverse.dropWhile isSpace = X.reverse := by
    cases hh : X.reverse.head? with
    | none =>
      rw [List.head?_eq_none_iff.mp hh]
      rfl
    | some c =>
      apply dropWhile_eq_self_of_head hh
      rw [List.head?_reverse] at hh
      have hXne : X ≠ [] := by
        intro hXnil
        rw [hXnil] at hh
        simp at hh
      have hsplit : A.reverse.takeWhile isSpace ++ X = A.reverse := by
        rw [hX]
        exact List.takeWhile_append_dropWhile _ _
      have hlast : A.reverse.getLast? = some c := by
        rw [← hsplit, List.getLast?_append, hh]
        rfl
      rw [List.getLast?_reverse] at hlast
      exact dropWhile_head_false (hA ▸ hlast)
  rw [h1, List.reverse_reverse]
  have h2 : X.dropWhile isSpace = X := by
    rw [hX]
    exact dropWhile_idem _ _
  rw [h2]

theorem pyStrip_eq_nil_iff {l : List Char} :
    pyStrip l = [] ↔ ∀ c ∈ l, isSpace c = true := by
  unfold pyStrip
  rw [List.reverse_eq_nil_iff, List.dropWhile_eq_nil_iff]
  constructor
  · intro h c hc
    by_cases hcd : c ∈ l.dropWhile isSpace
    · exact h c (List.mem_reverse.mpr hcd)
    · have hsplit := List.takeWhile_append_dropWhile isSpace l
      rw [← hsplit, List.mem_append] at hc
      rcases hc with hc | hc
      · exact List.mem_takeWhile_imp hc
      · exact absurd hc hcd
  · intro h x hx
    refine h x ?_
    have hx' : x ∈ l.dropWhile isSpace := List.mem_reverse.mp hx
    exact (List.dropWhile_sublist isSpace).mem hx'

theorem tiles_flatten {text : List Char} :
    ∀ (spans : List (Nat × Nat)) (s : Nat),
      tiles text.length s spans →
      (spans.map (fun pr => pySlice text pr.1 pr.2)).flatten = text.drop s := by
  intro spans
  induction spans with
  | nil =>
    intro s hs
    unfold tiles at hs
    rw [List.drop_eq_nil_of_le hs]
    rfl
  | cons ab rest ih =>
    intro s hs
    obtain ⟨a, b⟩ := ab
    obtain ⟨ha, hlt, hle, hrest⟩ := hs
    subst ha
    simp only [List.map_cons, List.flatten_cons]
    rw [ih b hrest]
    unfold pySlice
    have hd : text.drop b = (text.drop a).drop (b - a) := by
      rw [List.drop_drop]
      congr 1
      omega
    rw [hd, List.take_append_drop]

theorem splitTextGo_sound (text : List Char) (cs ov : Nat) (hcs : 0 < cs) :
    ∀ (fuel start : Nat) (chunks outC : List (List Char))
      (spans outS : List (Nat × Nat)),
      splitTextGo text cs ov fuel start chunks spans = some (outC, outS) →
      ∃ tail : List (Nat × Nat),
        outS = spans ++ tail ∧ tiles text.length start tail ∧
        outC = chunks ++
          ((tail.map (fun pr => pySlice text pr.1 pr.2)).map pyStrip).filter
            (fun c => c ≠ []) := by
  intro fuel
  induction fuel with
  | zero => intro start chunks outC spans outS h; simp [splitTextGo] at h
  | succ f ih =>
    intro start chunks outC spans outS h
    by_cases hge : start ≥ text.length
    · rw [splitTextGo, if_pos hge] at h
      obtain ⟨h1, h2⟩ : chunks = outC ∧ spans = outS := by simpa using h
      refine ⟨[], by rw [← h2]; simp, hge, by rw [← h1]; simp⟩
    · rw [splitTextGo_succ text cs ov f start chunks spans hge] at h
      obtain ⟨tail, ht1, ht2, ht3⟩ := ih _ _ _ _ _ h
      refine ⟨(start, (stepWindow text cs start).2) :: tail, ?_, ?_, ?_⟩
      · rw [ht1]
        simp
      · exact ⟨rfl, stepWindow_lt text cs start hcs (by omega),
          stepWindow_le text cs start (by omega), ht2⟩
      · rw [ht3, stepWindow_slice text cs start (by omega)]
        simp only [List.map_cons, List.filter_cons]
        by_cases hc : pyStrip (pySlice text start (stepWindow text cs start).2) = []
        · rw [if_neg (by simpa using hc), if_neg (by simpa using hc)]
        · rw [if_pos (by simpa using hc), if_pos (by simpa using hc)]
          simp

/-- C7: for every input and `targetSize > 0`:  (a) the windows visited by
`split_text` exactly tile the input — their concatenation is the whole
text, so no suffix is silently dropped;  (b) the returned chunks are
exactly the stripped windows with the whitespace-only ones removed;
(c) every returned chunk is non-empty and unchanged by further trimming;
(d) input that is empty after trimming yields the empty sequence; and
(e) input that is non-empty after trimming yields a non-empty sequence.
(The declared overlap never materialises — see C3 — so consecutive windows
are exactly adjacent and the coverage needs no overlap accounting.) -/
theorem split_text_covers (text : List Char) (cs ov : Nat) (hcs : 0 < cs) :
    ((splitTextSpans text cs ov).map (fun pr => pySlice text pr.1 pr.2)).flatten
      = text ∧
    split_text text cs ov =
      (((splitTextSpans text cs ov).map (fun pr => pySlice text pr.1 pr.2)).map
        pyStrip).filter (fun c => c ≠ []) ∧
    (∀ c ∈ split_text text cs ov, pyStrip c = c ∧ c ≠ []) ∧
    (pyStrip text = [] → split_text text cs ov = []) ∧
    (pyStrip text ≠ [] → split_text text cs ov ≠ []) := by
  obtain ⟨⟨outC, outS⟩, hgo⟩ :=
    splitTextGo_total text cs ov hcs (text.length + 1) 0 [] [] (by omega)
  obtain ⟨tail, ht1, ht2, ht3⟩ := splitTextGo_sound text cs ov hcs _ _ _ _ _ _ hgo
  simp only [List.nil_append] at ht1 ht3
  subst ht1
  have hspans : splitTextSpans text cs ov = outS := by
    unfold splitTextSpans
    rw [hgo]
  have hchunks0 : split_text text cs ov = outC.filter (fun c => pyStrip c ≠ []) := by
    unfold split_text
    rw [hgo]
  have hflat : ((outS.map (fun pr => pySlice text pr.1 pr.2)).flatten) = text := by
    rw [tiles_flatten outS 0 ht2, List.drop_zero]
  have hmem : ∀ c ∈ outC, pyStrip c = c ∧ c ≠ [] := by
    intro c hc
    rw [ht3, List.mem_filter] at hc
    obtain ⟨hc1, hc2⟩ := hc
    rw [List.mem_map] at hc1
    obtain ⟨w, _, rfl⟩ := hc1
    exact ⟨pyStrip_idem w, by simpa using hc2⟩
  have hfix : split_text text cs ov = outC := by
    rw [hchunks0]
    apply List.filter_eq_self.mpr
    intro c hc
    have h1 := (hmem c hc).1
    have h2 := (hmem c hc).2
    simp [h1, h2]
  refine ⟨by rw [hspans]; exact hflat, by rw [hspans, hfix]; exact ht3, ?_, ?_, ?_⟩
  · intro c hc
    exact hmem c (hfix ▸ hc)
  · intro hnil
    rw [hfix, ht3]
    apply List.filter_eq_nil_iff.mpr
    intro c hc
    rw [List.mem_map] at hc
    obtain ⟨w, hw, rfl⟩ := hc
    rw [List.mem_map] at hw
    obtain ⟨pr, _, rfl⟩ := hw
    simp only [ne_eq, decide_not, Bool.not_eq_true', decide_eq_false_iff_not,
      not_not]
    rw [pyStrip_eq_nil_iff]
    intro ch hch
    have hcht : ch ∈ text := by
      unfold pySlice at hch
      exact List.mem_of_mem_drop (List.mem_of_mem_take hch)
    exact pyStrip_eq_nil_iff.mp hnil ch hcht
  · intro hne hcontra
    rw [hfix] at hcontra
    rw [ht3] at hcontra
    apply hne
    rw [pyStrip_eq_nil_iff]
    intro ch hch
    rw [← hflat, List.mem_flatten] at hch
    obtain ⟨w, hw1, hw2⟩ := hch
    rw [List.mem_map] at hw1
    obtain ⟨pr, hpr, rfl⟩ := hw1
    by_contra hsp
    have hwne : pyStrip (pySlice text pr.1 pr.2) ≠ [] := by
      rw [Ne, pyStrip_eq_nil_iff]
      intro hall
      exact hsp (hall ch hw2)
    have hmemf : pyStrip (pySlice text pr.1 pr.2) ∈
        ((outS.map (fun pr => pySlice text pr.1 pr.2)).map pyStrip).filter
          (fun c => c ≠ []) := by
      rw [List.mem_filter]
      exact ⟨List.mem_map_of_mem _ (List.mem_map_of_mem _ hpr), by simpa using hwne⟩
    rw [hcontra] at hmemf
    exact List.not_mem_nil _ hmemf

/-- Witness for C7 at a concrete input. -/
theorem split_text_covers_witness :
    (((splitTextSpans (("ab cd").toList) 3 1).map
        (fun pr => pySlice (("ab cd").toList) pr.1 pr.2)).flatten
      = ("ab cd").toList) ∧
    split_text (("ab cd").toList) 3 1 =
      (((splitTextSpans (("ab cd").toList) 3 1).map
        (fun pr => pySlice (("ab cd").toList) pr.1 pr.2)).map
          pyStrip).filter (fun c => c ≠ []) ∧
    (∀ c ∈ split_text (("ab cd").toList) 3 1, pyStrip c = c ∧ c ≠ []) ∧
    (pyStrip (("ab cd").toList) = [] → split_text (("ab cd").toList) 3 1 = []) ∧
    (pyStrip (("ab cd").toList) ≠ [] → split_text (("ab cd").toList) 3 1 ≠ []) :=
  split_text_covers (("ab cd").toList) 3 1 (by decide)

/-! ### Claim C5: result count, ordering and tie-breaking -/

theorem keyle_refl (a : Option ℚ) : keyle a a = true := by
  cases a <;> simp [keyle]

theorem keyle_total (a b : Option ℚ) : keyle a b = true ∨ keyle b a = true := by
  cases a <;> cases b <;> simp [keyle] <;> exact le_total _ _

theorem keyle_trans {a b c : Option ℚ} (h1 : keyle a b = true) (h2 : keyle b c = true) :
    keyle a c = true := by
  cases a <;> cases b <;> cases c <;> simp_all [keyle] <;> exact le_trans h1 h2

theorem keyle_antisymm {a b : Option ℚ} (h1 : keyle a b = true)
    (h2 : keyle b a = true) : a = b := by
  cases a <;> cases b <;> simp_all [keyle] <;> exact le_antisymm h1 h2

theorem argLe_total (sims : List SimF) (i j : Nat) :
    argLe sims i j = true ∨ argLe sims j i = true := by
  unfold argLe
  by_cases hab : simKey (sims.getD i default) = simKey (sims.getD j default)
  · rw [if_pos hab, if_pos hab.symm]
    simp only [decide_eq_true_eq]
    omega
  · rw [if_neg hab, if_neg (Ne.symm hab)]
    exact keyle_total _ _

theorem argLe_trans (sims : List SimF) {i j k : Nat}
    (h1 : argLe sims i j = true) (h2 : argLe sims j k = true) :
    argLe sims i k = true := by
  unfold argLe at h1 h2 ⊢
  by_cases hab : simKey (sims.getD i default) = simKey (sims.getD j default) <;>
    by_cases hbc : simKey (sims.getD j default) = simKey (sims.getD k default)
  · rw [if_pos hab] at h1
    rw [if_pos hbc] at h2
    rw [if_pos (hab.trans hbc)]
    simp only [decide_eq_true_eq] at h1 h2 ⊢
    omega
  · have hac : ¬ simKey (sims.getD i default) = simKey (sims.getD k default) :=
      fun h => hbc (hab.symm.trans h)
    rw [if_neg hbc] at h2
    rw [if_neg hac, hab]
    exact h2
  · have hac : ¬ simKey (sims.getD i default) = simKey (sims.getD k default) :=
      fun h => hab (h.trans hbc.symm)
    rw [if_neg hab] at h1
    rw [if_neg hac, ← hbc]
    exact h1
  · rw [if_neg hab] at h1
    rw [if_neg hbc] at h2
    by_cases hac : simKey (sims.getD i default) = simKey (sims.getD k default)
    · exact absurd (keyle_antisymm h1 (hac.symm ▸ h2)) hab
    · rw [if_neg hac]
      exact keyle_trans h1 h2

theorem argsort_sorted (sims : List SimF) :
    List.Pairwise (fun i j => argLe sims i j = true) (argsort sims) := by
  unfold argsort
  haveI : IsTotal Nat (fun i j => argLe sims i j = true) := ⟨argLe_total sims⟩
  haveI : IsTrans Nat (fun i j => argLe sims i j = true) :=
    ⟨fun _ _ _ h1 h2 => argLe_trans sims h1 h2⟩
  exact List.sorted_insertionSort _ _

theorem argLe_imp_keyle {sims : List SimF} {i j : Nat} (h : argLe sims j i = true) :
    keyle (simKey (sims.getD j default)) (simKey (sims.getD i default)) = true := by
  unfold argLe at h
  by_cases he : simKey (sims.getD j default) = simKey (sims.getD i default)
  · rw [he]
    exact keyle_refl _
  · rwa [if_neg he] at h

/-- The model's `argsort` is ascending in the similarity keys.  Together
with `argsort_perm`/`argsort_length` this is everything numpy guarantees
of `np.argsort` at every array size and for every sort kind; the general
`search_documents` theorems below use only these properties, never the
model's tie order (numpy's default quicksort is unstable above its
small-array threshold, so the tie order there is unspecified). -/
theorem argsort_keySorted (sims : List SimF) :
    List.Pairwise (fun i j =>
      keyle (simKey (sims.getD i default)) (simKey (sims.getD j default)) = true)
      (argsort sims) :=
  (argsort_sorted sims).imp (fun h => argLe_imp_keyle h)

/-- The ranked index list is descending in the similarity keys.  Proved
from `argsort_keySorted` alone (a slice of an ascending list, reversed),
with no appeal to the model's tie order, so it holds of the program for
every index size. -/
theorem rankedIndices_sorted (sims : List SimF) (n : Int) :
    List.Pairwise (fun i j =>
      keyle (simKey (sims.getD j default)) (simKey (sims.getD i default)) = true)
      (rankedIndices sims n) := by
  unfold rankedIndices
  rw [List.pairwise_reverse]
  apply List.Pairwise.sublist ?_ (argsort_keySorted sims)
  unfold pySliceFrom
  split <;> exact List.drop_sublist _ _

/-- C5 counterexample: two stored chunks (insertion order: `chunk_id` 0 then
1) whose vectors `[1,0]` and `[2,0]` have *equal* cosine similarity to the
query `[1,0]`; `search` with `topK = 2` returns the *later*-inserted chunk
first (`argsort` ascending is reversed, so ties come out in descending
insertion order), refuting "ties broken by original insertion order
(earlier-inserted chunk first)". -/
theorem search_tie_break_later_first :
    simKey (cosSim [(1 : ℚ), 0] [1, 0]) = simKey (cosSim [(1 : ℚ), 0] [2, 0]) ∧
    (search_documents stTie true (some [(1 : ℚ), 0]) 2).map (fun r => r.metadatas) =
      some [(("A").toList, 1), (("A").toList, 0)] := by
  have hsims : stTie.embeddings.map (cosSim [(1 : ℚ), 0]) =
      [{ num := 1, denSq := 1 }, { num := 2, denSq := 4 }] := by
    norm_num [stTie, cosSim, dotQ, sumSq]
  have hk0 : simKey { num := (1 : ℚ), denSq := 1 } = some 1 := by
    norm_num [simKey]
  have hk1 : simKey { num := (2 : ℚ), denSq := 4 } = some 1 := by
    norm_num [simKey]
  constructor
  · have h0 : cosSim [(1 : ℚ), 0] [1, 0] = { num := 1, denSq := 1 } := by
      norm_num [cosSim, dotQ, sumSq]
    have h1 : cosSim [(1 : ℚ), 0] [2, 0] = { num := 2, denSq := 4 } := by
      norm_num [cosSim, dotQ, sumSq]
    rw [h0, h1, hk0, hk1]
  · rw [search_documents_eq stTie [(1 : ℚ), 0] 2 rfl (by decide)]
    have hle : argLe [{ num := (1 : ℚ), denSq := 1 }, { num := 2, denSq := 4 }] 0 1
        = true := by
      unfold argLe
      simp [hk0, hk1]
    have hranked : rankedIndices
        [{ num := (1 : ℚ), denSq := 1 }, { num := 2, denSq := 4 }] 2 = [1, 0] := by
      have hsort : argsort [{ num := (1 : ℚ), denSq := 1 }, { num := 2, denSq := 4 }]
          = [0, 1] := by
        unfold argsort
        simp [List.insertionSort, List.orderedInsert, hle]
      unfold rankedIndices pySliceFrom
      rw [hsort]
      norm_num
    rw [hsims, hranked]
    simp [stTie, docA0, docA1]

/-- C5 amended: for `topK > 0` (and well-defined similarities: non-zero
norms, aligned lists), `search` returns exactly `min(topK, totalCount)`
results sorted descending by cosine similarity.  The claimed tie-break —
earlier-inserted chunk first — does not hold: numpy guarantees only an
ascending-by-key permutation, whose reversal the code takes; below numpy's
small-array threshold the argsort is stable and the reversal puts the
*later*-inserted chunk first (the counterexample), and above the threshold
the default quicksort's tie order is unspecified, so no insertion-order
tie-break is guaranteed at all.  The conclusions proved here use only the
ascending-permutation properties of `argsort` (`rankedIndices_sorted`,
`argsort_length`), never its tie order, so they hold of the program at
every index size. -/
theorem search_documents_ranking (st : RAGState) (q : List ℚ) (k : Int)
    (hk : 0 < k) (hlen : st.embeddings.length = st.documents.length)
    (hne : st.documents ≠ [])
    (hq : sumSq q ≠ 0) (hv : ∀ v ∈ st.embeddings, sumSq v ≠ 0) :
    ∃ r, search_documents st true (some q) k = some r ∧
      r.documents.length = min k.toNat st.documents.length ∧
      List.Pairwise (fun a b => keyle (simKey b) (simKey a) = true) r.simsRanked := by
  refine ⟨_, search_documents_eq st q k hlen hne, ?_, ?_⟩
  · show ((rankedIndices (st.embeddings.map (cosSim q)) k).map _).length = _
    rw [List.length_map, rankedIndices_length_pos _ k hk, List.length_map, hlen]
  · show List.Pairwise _ ((rankedIndices (st.embeddings.map (cosSim q)) k).map _)
    rw [List.pairwise_map]
    exact rankedIndices_sorted _ k

/-- Witness for the amended C5 at a concrete input (two chunks, `topK = 2`). -/
theorem search_documents_ranking_witness :
    ∃ r, search_documents stTie true (some [(1 : ℚ), 0]) 2 = some r ∧
      r.documents.length = min (2 : Int).toNat stTie.documents.length ∧
      List.Pairwise (fun a b => keyle (simKey b) (simKey a) = true) r.simsRanked :=
  search_documents_ranking stTie [(1 : ℚ), 0] 2 (by decide) rfl (by decide)
    (by norm_num [sumSq, dotQ])
    (by
      intro v hv
      simp only [stTie, List.mem_cons, List.not_mem_nil, or_false] at hv
      rcases hv with rfl | rfl <;> norm_num [sumSq, dotQ])

/-- Witness for the amended C8 at a concrete input. -/
theorem get_document_list_unique_unordered_witness :
    (get_document_list id stABA).Perm
      (dedupFirstSeen (stABA.documents.map (fun d => d.source))) ∧
    (get_document_list id stABA).Nodup :=
  ⟨(get_document_list_unique_unordered id (fun l => List.Perm.refl l) stABA).1,
   (get_document_list_unique_unordered id (fun l => List.Perm.refl l) stABA).2.1⟩
